import Mathlib

/-!
Verification of the Motzkin-path counter and enumerator (`src/motzkin.py`).

The repository has two operations:

* `motzkinlengthk(length, width, memoize={0: 1})` - counts Motzkin paths of
  a given length and minimum width via a memoized recurrence; the memo is a
  mutable default argument keyed by length only and shared across calls.
* `motzkin_sequences(length, minwidth)` - a recursive generator yielding
  every such path as a string over the characters dot, open paren, close
  paren.

We embed both.  The mathematical denotations (`motzkinlengthk`,
`motzkin_sequences` below) are defined by structural recursion on a fuel
parameter (the fuel is an embedding artifact: `fuelGe` lemmas show any
fuel at least the length gives the same value, and the unfolding lemmas
recover exactly the source recurrences).  The stateful and partial aspects
of the Python code - the shared memo dictionary, integer (possibly
negative) arguments and potential non-termination - are embedded
separately and faithfully by `motzkinMemoF` / `motzkinSeqF`, which work on
`Int` with an explicit memo association list and a fuel bound, returning
`none` where the Python code would fail to terminate.
-/

/-- Fuel-indexed counter.  `motzkinCountAux w fuel n` computes the number of
Motzkin paths of length `n` and minimum width `w`, by the recurrence of
`motzkinlengthk`: one path of length 0, and otherwise the dot-first paths of
length `n-1` plus, for each inner length from `w` to `n-2` (the Python loop
`range(width, (length-2)+1)`, here `List.range' w ((n-1) - w)` for length
`n`), the products inside-count times after-count. -/
def motzkinCountAux (w : Nat) : Nat → Nat → Nat
  | _, 0 => 1
  | 0, _ + 1 => 1
  | fuel + 1, n + 1 =>
      motzkinCountAux w fuel n +
        ((List.range' w (n - w)).map (fun inner =>
            motzkinCountAux w fuel inner * motzkinCountAux w fuel (n - 1 - inner))).sum

/-- The counter `motzkinlengthk(length, width)` of the source, as a pure
function of its two arguments (the memo cache of the source is embedded
separately by `motzkinMemoF`; `motzkinMemoF_init_eq` relates the two). -/
def motzkinlengthk (length width : Nat) : Nat :=
  motzkinCountAux width length length

/-- The fuel argument of `motzkinCountAux` is irrelevant once it dominates
the length argument. -/
theorem motzkinCountAux_fuelGe (w : Nat) :
    ∀ f f' n, n ≤ f → n ≤ f' → motzkinCountAux w f n = motzkinCountAux w f' n := by
  intro f
  induction f with
  | zero =>
      intro f' n hf _
      interval_cases n
      cases f' <;> rfl
  | succ f ih =>
      intro f' n hf hf'
      match n, f' with
      | 0, f' => cases f' <;> rfl
      | m + 1, f' + 1 =>
          show motzkinCountAux w (f + 1) (m + 1) = motzkinCountAux w (f' + 1) (m + 1)
          unfold motzkinCountAux
          have hm : m ≤ f := Nat.lt_succ_iff.mp hf
          have hm' : m ≤ f' := Nat.lt_succ_iff.mp hf'
          rw [ih f' m hm hm']
          congr 1
          apply congrArg
          apply List.map_congr_left
          intro inner hin
          have hb := List.mem_range'_1.mp hin
          have h1 : inner ≤ f := by omega
          have h1' : inner ≤ f' := by omega
          have h2 : m - 1 - inner ≤ f := by omega
          have h2' : m - 1 - inner ≤ f' := by omega
          rw [ih f' inner h1 h1', ih f' (m - 1 - inner) h2 h2']

/-- Any sufficient fuel computes `motzkinlengthk`. -/
theorem motzkinCountAux_eq (w f n : Nat) (h : n ≤ f) :
    motzkinCountAux w f n = motzkinlengthk n w :=
  motzkinCountAux_fuelGe w f n n h (Nat.le_refl n)

/-- Base case of the counter: one path (the empty one) of length 0. -/
theorem motzkinlengthk_zero (w : Nat) : motzkinlengthk 0 w = 1 := rfl

/-- Unfolding of the counter at positive length: exactly the source
recurrence of `motzkinlengthk`. -/
theorem motzkinlengthk_succ (w n : Nat) :
    motzkinlengthk (n + 1) w =
      motzkinlengthk n w +
        ((List.range' w (n - w)).map (fun inner =>
            motzkinlengthk inner w * motzkinlengthk (n - 1 - inner) w)).sum := by
  show motzkinCountAux w (n + 1) (n + 1) = _
  unfold motzkinCountAux
  rw [motzkinCountAux_eq w n n (Nat.le_refl n)]
  congr 1
  apply congrArg
  apply List.map_congr_left
  intro inner hin
  have hb := List.mem_range'_1.mp hin
  rw [motzkinCountAux_eq w n inner (by omega),
    motzkinCountAux_eq w n (n - 1 - inner) (by omega)]

/-- Fuel-indexed enumerator.  `motzkinSeqAux w fuel n` is the list of
Motzkin paths (as character lists over `'.'`, `'('`, `')'`) of length `n`
and minimum width `w`, in the production order of the generator
`motzkin_sequences`: for length 0 the single empty path; otherwise first
every length `n-1` path prefixed with a dot, then, for each inner length
from `w` to `n-2` in ascending order, every path `'(' inside ')' after`
with `inside` ranging over the inner-length paths (outer loop) and `after`
over the paths of the remaining length (inner loop). -/
def motzkinSeqAux (w : Nat) : Nat → Nat → List (List Char)
  | _, 0 => [[]]
  | 0, _ + 1 => []
  | fuel + 1, n + 1 =>
      (motzkinSeqAux w fuel n).map (fun s => '.' :: s) ++
        ((List.range' w (n - w)).map (fun inner =>
            (motzkinSeqAux w fuel inner).bind (fun inside =>
              (motzkinSeqAux w fuel (n - 1 - inner)).map (fun after =>
                '(' :: (inside ++ ')' :: after))))).join

/-- The enumerator `motzkin_sequences(length, minwidth)` of the source: the
list of generated paths in generator order (the generator is pure; the
partial `Int`-argument behaviour is embedded separately by `motzkinSeqF`,
and `motzkinSeqF_eq` relates the two). -/
def motzkin_sequences (length minwidth : Nat) : List (List Char) :=
  motzkinSeqAux minwidth length length

/-- The fuel argument of `motzkinSeqAux` is irrelevant once it dominates
the length argument. -/
theorem motzkinSeqAux_fuelGe (w : Nat) :
    ∀ f f' n, n ≤ f → n ≤ f' → motzkinSeqAux w f n = motzkinSeqAux w f' n := by
  intro f
  induction f with
  | zero =>
      intro f' n hf _
      interval_cases n
      cases f' <;> rfl
  | succ f ih =>
      intro f' n hf hf'
      match n, f' with
      | 0, f' => cases f' <;> rfl
      | m + 1, f' + 1 =>
          show motzkinSeqAux w (f + 1) (m + 1) = motzkinSeqAux w (f' + 1) (m + 1)
          unfold motzkinSeqAux
          have hm : m ≤ f := Nat.lt_succ_iff.mp hf
          have hm' : m ≤ f' := Nat.lt_succ_iff.mp hf'
          rw [ih f' m hm hm']
          congr 1
          apply congrArg
          apply List.map_congr_left
          intro inner hin
          have hb := List.mem_range'_1.mp hin
          rw [ih f' inner (by omega) (by omega),
            ih f' (m - 1 - inner) (by omega) (by omega)]

/-- Any sufficient fuel computes `motzkin_sequences`. -/
theorem motzkinSeqAux_eq (w f n : Nat) (h : n ≤ f) :
    motzkinSeqAux w f n = motzkin_sequences n w :=
  motzkinSeqAux_fuelGe w f n n h (Nat.le_refl n)

/-- Base case of the enumerator: exactly one path of length 0, the empty
one. -/
theorem motzkin_sequences_zero (w : Nat) : motzkin_sequences 0 w = [[]] := rfl

/-- Unfolding of the enumerator at positive length: exactly the source
generator's production order. -/
theorem motzkin_sequences_succ (w n : Nat) :
    motzkin_sequences (n + 1) w =
      (motzkin_sequences n w).map (fun s => '.' :: s) ++
        ((List.range' w (n - w)).map (fun inner =>
            (motzkin_sequences inner w).bind (fun inside =>
              (motzkin_sequences (n - 1 - inner) w).map (fun after =>
                '(' :: (inside ++ ')' :: after))))).join := by
  show motzkinSeqAux w (n + 1) (n + 1) = _
  unfold motzkinSeqAux
  rw [motzkinSeqAux_eq w n n (Nat.le_refl n)]
  congr 1
  apply congrArg
  apply List.map_congr_left
  intro inner hin
  have hb := List.mem_range'_1.mp hin
  rw [motzkinSeqAux_eq w n inner (by omega),
    motzkinSeqAux_eq w n (n - 1 - inner) (by omega)]

example : motzkinlengthk 8 3 = 16 := by decide
example : motzkinlengthk 5 0 = 21 := by decide
example : (motzkin_sequences 8 3).length = 16 := by decide
example : motzkin_sequences 2 0 = [['.', '.'], ['(', ')']] := by decide

/-- Refinement between the two components: the enumerator produces exactly
as many paths as the counter counts, for every length and width. -/
theorem motzkin_sequences_length_eq (n w : Nat) :
    (motzkin_sequences n w).length = motzkinlengthk n w := by
  induction n using Nat.strong_induction_on with
  | _ n ih =>
    match n with
    | 0 => rfl
    | m + 1 =>
      rw [motzkin_sequences_succ, motzkinlengthk_succ]
      rw [List.length_append, List.length_map, ih m (by omega)]
      congr 1
      rw [List.length_join, List.map_map]
      congr 1
      apply List.map_congr_left
      intro inner hin
      have hb := List.mem_range'_1.mp hin
      show ((motzkin_sequences inner w).bind _).length = _
      rw [List.length_bind]
      simp only [Function.comp_def, List.length_map, List.map_const', List.sum_replicate,
        smul_eq_mul]
      rw [ih inner (by omega), ih (m - 1 - inner) (by omega)]

/-- Sums over `List.range'` are `Finset.Ico` sums. -/
theorem sum_map_range' (f : Nat → Nat) :
    ∀ k a, ((List.range' a k).map f).sum = ∑ i in Finset.Ico a (a + k), f i := by
  intro k
  induction k with
  | zero => intro a; simp
  | succ k ih =>
      intro a
      rw [List.range'_succ a k 1, Finset.sum_eq_sum_Ico_succ_bot (by omega) f]
      simp only [List.map_cons, List.sum_cons]
      have hb : a + (k + 1) = a + 1 + k := by omega
      rw [hb, ih (a + 1)]

/-- C1: for every length in [0,15] and every minwidth in [0, length], the
number of strings produced by `motzkin_sequences length minwidth` equals
the integer returned by `motzkinlengthk length minwidth`.  (It in fact
holds for all lengths and widths, by `motzkin_sequences_length_eq`.) -/
theorem motzkin_count_enum_agree (length minwidth : Nat)
    (h1 : length ≤ 15) (h2 : minwidth ≤ length) :
    (motzkin_sequences length minwidth).length = motzkinlengthk length minwidth :=
  motzkin_sequences_length_eq length minwidth

/-- Witness for C1 at length 8, minwidth 3. -/
theorem motzkin_count_enum_agree_witness :
    8 ≤ 15 ∧ 3 ≤ 8 ∧
      (motzkin_sequences 8 3).length = motzkinlengthk 8 3 :=
  ⟨by decide, by decide, motzkin_count_enum_agree 8 3 (by decide) (by decide)⟩

/-- C2: `motzkinlengthk 0 w = 1` for every width `w`, and for length at
least 1 the counter satisfies the recurrence
`count(length, w) = count(length-1, w) + sum over inner from w to length-2
of count(inner, w) * count(length-2-inner, w)` (an empty range contributes
0; `Finset.Ico w (length - 1)` is exactly the inner range from `w` to
`length - 2` inclusive). -/
theorem motzkinlengthk_recurrence_spec (w length : Nat) :
    motzkinlengthk 0 w = 1 ∧
      (1 ≤ length →
        motzkinlengthk length w =
          motzkinlengthk (length - 1) w +
            ∑ inner in Finset.Ico w (length - 1),
              motzkinlengthk inner w * motzkinlengthk (length - 2 - inner) w) := by
  refine ⟨rfl, ?_⟩
  intro h
  match length, h with
  | n + 1, _ =>
      have hsub : ∀ inner : Nat, n + 1 - 2 - inner = n - 1 - inner := by omega
      have hico : Finset.Ico w (w + (n - w)) = Finset.Ico w n := by
        apply Finset.ext
        intro i
        simp only [Finset.mem_Ico]
        omega
      simp only [Nat.add_sub_cancel, hsub]
      rw [motzkinlengthk_succ, sum_map_range', hico]

/-- Witness for C2 at width 0, length 5 (the spec's explicit decomposition
example). -/
theorem motzkinlengthk_recurrence_spec_witness :
    motzkinlengthk 0 0 = 1 ∧ (1 ≤ 5) ∧
      motzkinlengthk 5 0 =
        motzkinlengthk 4 0 +
          ∑ inner in Finset.Ico 0 4,
            motzkinlengthk inner 0 * motzkinlengthk (3 - inner) 0 := by
  refine ⟨(motzkinlengthk_recurrence_spec 0 5).1, by decide, ?_⟩
  have h := (motzkinlengthk_recurrence_spec 0 5).2 (by decide)
  simpa using h

/-- C10 (implicit): for every length and minwidth the count is at least 1
and the enumerator yields at least one string, namely the all-dots path. -/
theorem motzkin_all_dots (length minwidth : Nat) :
    1 ≤ motzkinlengthk length minwidth ∧
      List.replicate length '.' ∈ motzkin_sequences length minwidth ∧
      motzkin_sequences length minwidth ≠ [] := by
  have key : ∀ n w : Nat, 1 ≤ motzkinlengthk n w ∧
      List.replicate n '.' ∈ motzkin_sequences n w := by
    intro n w
    induction n with
    | zero => exact ⟨Nat.le_refl 1, by simp [motzkin_sequences_zero]⟩
    | succ m ih =>
        constructor
        · have h1 := ih.1
          rw [motzkinlengthk_succ]
          omega
        · rw [motzkin_sequences_succ]
          apply List.mem_append_left
          rw [List.replicate_succ]
          exact List.mem_map_of_mem _ ih.2
  refine ⟨(key length minwidth).1, (key length minwidth).2, ?_⟩
  intro hnil
  have := (key length minwidth).2
  rw [hnil] at this
  exact List.not_mem_nil _ this

/-- C7: output order of the enumerator at positive length: all dot-first
paths (a dot prefixed to each length-1 result, in recursive order) come
before any paren-first path; the paren-first paths are grouped by inner
length, the inner lengths run in ascending order and range from minwidth
to length-2; and for fixed inner length the inside sequence is the outer
loop and the after sequence the inner loop. -/
theorem motzkin_sequences_order_spec (minwidth n : Nat) :
    motzkin_sequences (n + 1) minwidth =
      (motzkin_sequences n minwidth).map (fun s => '.' :: s) ++
        ((List.range' minwidth (n - minwidth)).map (fun inner =>
            (motzkin_sequences inner minwidth).bind (fun inside =>
              (motzkin_sequences (n - 1 - inner) minwidth).map (fun after =>
                '(' :: (inside ++ ')' :: after))))).join ∧
      List.Pairwise (· < ·) (List.range' minwidth (n - minwidth)) ∧
      (∀ i ∈ List.range' minwidth (n - minwidth),
        minwidth ≤ i ∧ i ≤ (n + 1) - 2) := by
  refine ⟨motzkin_sequences_succ minwidth n, List.pairwise_lt_range' minwidth (n - minwidth), ?_⟩
  intro i hi
  have := List.mem_range'_1.mp hi
  omega

/-- C8: the enumerator at length 8, minwidth 3 yields exactly 16 pairwise
distinct strings, among them `(.(...))` but not `()......`. -/
theorem motzkin_sequences_8_3_example :
    (motzkin_sequences 8 3).length = 16 ∧
      (motzkin_sequences 8 3).Nodup ∧
      ['(', '.', '(', '.', '.', '.', ')', ')'] ∈ motzkin_sequences 8 3 ∧
      ['(', ')', '.', '.', '.', '.', '.', '.'] ∉ motzkin_sequences 8 3 := by
  refine ⟨by decide, by decide, by decide, by decide⟩

/-- Prefix-balance invariant of §3 of the spec: in every prefix, the count
of open marks is at least the count of close marks. -/
def PrefixBalanced (s : List Char) : Prop :=
  ∀ k, (s.take k).count ')' ≤ (s.take k).count '('

/-- Total-balance invariant: equal counts of open and close marks. -/
def TotalBalanced (s : List Char) : Prop :=
  s.count '(' = s.count ')'

/-- Both balance invariants together. -/
def BalancedPath (s : List Char) : Prop :=
  PrefixBalanced s ∧ TotalBalanced s

/-- The contiguous sub-path of `s` from position `a` (inclusive) to
position `b` (exclusive). -/
def subpath (s : List Char) (a b : Nat) : List Char :=
  (s.drop a).take (b - a)

/-- `(i, j)` is a matched open/close pair of `s`: an open mark at `i`, a
close mark at `j` after it, and the enclosed sub-path strictly between
them balanced (standard bracket matching). -/
def MatchedPair (s : List Char) (i j : Nat) : Prop :=
  i < j ∧ s[i]? = some '(' ∧ s[j]? = some ')' ∧ BalancedPath (subpath s (i + 1) j)

/-- Minimum-width invariant of §3: every matched pair encloses a sub-path
of length at least `w`, counting all enclosed symbols. -/
def MinWidthOK (w : Nat) (s : List Char) : Prop :=
  ∀ i j, MatchedPair s i j → w ≤ (subpath s (i + 1) j).length

/-- Signed bracket balance of a path. -/
def bal (s : List Char) : Int :=
  (s.count '(' : Int) - (s.count ')' : Int)

theorem bal_append (l1 l2 : List Char) : bal (l1 ++ l2) = bal l1 + bal l2 := by
  simp only [bal, List.count_append]
  push_cast
  ring

theorem bal_cons (c : Char) (l : List Char) : bal (c :: l) = bal [c] + bal l :=
  bal_append [c] l

theorem bal_open : bal ['('] = 1 := by decide

theorem bal_close : bal [')'] = -1 := by decide

theorem bal_dot : bal ['.'] = 0 := by decide

theorem prefixBalanced_iff (s : List Char) :
    PrefixBalanced s ↔ ∀ k, 0 ≤ bal (s.take k) := by
  unfold PrefixBalanced bal
  constructor <;> intro h k <;> have := h k <;> omega

theorem totalBalanced_iff (s : List Char) : TotalBalanced s ↔ bal s = 0 := by
  unfold TotalBalanced bal
  omega

/-- Grammar of Motzkin paths of minimum width `w`, mirroring the
leading-dot / leading-matched-pair decomposition both source functions
recurse on. -/
inductive IsMotzkin (w : Nat) : List Char → Prop
  | nil : IsMotzkin w []
  | dot {s : List Char} : IsMotzkin w s → IsMotzkin w ('.' :: s)
  | wrap {u v : List Char} : IsMotzkin w u → IsMotzkin w v → w ≤ u.length →
      IsMotzkin w ('(' :: (u ++ ')' :: v))

/-- Every enumerated path has the requested length. -/
theorem motzkin_sequences_mem_length (n w : Nat) :
    ∀ s ∈ motzkin_sequences n w, s.length = n := by
  induction n using Nat.strong_induction_on with
  | _ n ih =>
    match n with
    | 0 =>
        intro s hs
        rw [motzkin_sequences_zero] at hs
        simp only [List.mem_singleton] at hs
        subst hs
        rfl
    | m + 1 =>
        intro s hs
        rw [motzkin_sequences_succ] at hs
        rcases List.mem_append.mp hs with hd | hp
        · rcases List.mem_map.mp hd with ⟨t, ht, rfl⟩
          simp [ih m (by omega) t ht]
        · rcases List.mem_join.mp hp with ⟨G, hG, hsG⟩
          rcases List.mem_map.mp hG with ⟨inner, hinner, rfl⟩
          rcases List.mem_bind.mp hsG with ⟨inside, hins, hmem⟩
          rcases List.mem_map.mp hmem with ⟨after, haft, rfl⟩
          have hb := List.mem_range'_1.mp hinner
          have h1 := ih inner (by omega) inside hins
          have h2 := ih (m - 1 - inner) (by omega) after haft
          simp only [List.length_cons, List.length_append, h1, h2]
          omega

/-- Every enumerated path is generated by the Motzkin grammar for the
requested width. -/
theorem motzkin_sequences_isMotzkin (n w : Nat) :
    ∀ s ∈ motzkin_sequences n w, IsMotzkin w s := by
  induction n using Nat.strong_induction_on with
  | _ n ih =>
    match n with
    | 0 =>
        intro s hs
        rw [motzkin_sequences_zero] at hs
        simp only [List.mem_singleton] at hs
        subst hs
        exact IsMotzkin.nil
    | m + 1 =>
        intro s hs
        rw [motzkin_sequences_succ] at hs
        rcases List.mem_append.mp hs with hd | hp
        · rcases List.mem_map.mp hd with ⟨t, ht, rfl⟩
          exact IsMotzkin.dot (ih m (by omega) t ht)
        · rcases List.mem_join.mp hp with ⟨G, hG, hsG⟩
          rcases List.mem_map.mp hG with ⟨inner, hinner, rfl⟩
          rcases List.mem_bind.mp hsG with ⟨inside, hins, hmem⟩
          rcases List.mem_map.mp hmem with ⟨after, haft, rfl⟩
          have hb := List.mem_range'_1.mp hinner
          have hlen := motzkin_sequences_mem_length inner w inside hins
          exact IsMotzkin.wrap (ih inner (by omega) inside hins)
            (ih (m - 1 - inner) (by omega) after haft) (by omega)

/-- Paths of the Motzkin grammar satisfy both balance invariants, in the
signed form: total balance 0 and every prefix balance non-negative. -/
theorem IsMotzkin.bal_facts {w : Nat} {s : List Char} (h : IsMotzkin w s) :
    bal s = 0 ∧ ∀ k, 0 ≤ bal (s.take k) := by
  induction h with
  | nil => exact ⟨rfl, fun k => by simp [bal]⟩
  | dot _ ih =>
      obtain ⟨h0, hp⟩ := ih
      constructor
      · rw [bal_cons, bal_dot, h0]
        ring
      · intro k
        cases k with
        | zero => simp [bal]
        | succ k =>
            rw [List.take_succ_cons, bal_cons, bal_dot]
            have := hp k
            omega
  | @wrap u v _ _ _ ihu ihv =>
      obtain ⟨hu0, hup⟩ := ihu
      obtain ⟨hv0, hvp⟩ := ihv
      constructor
      · rw [bal_cons, bal_open, bal_append, bal_cons, bal_close, hu0, hv0]
        ring
      · intro k
        cases k with
        | zero => simp [bal]
        | succ k =>
            rw [List.take_succ_cons, bal_cons, bal_open,
              List.take_append_eq_append_take, bal_append]
            have h1 := hup k
            rcases hk : k - List.length u with _ | m
            · rw [List.take_zero]
              have hnil : bal [] = 0 := rfl
              omega
            · rw [List.take_succ_cons, bal_cons, bal_close]
              have h2 := hvp m
              omega

/-- Grammar paths satisfy the spec's prefix-balance invariant. -/
theorem IsMotzkin.prefixBalanced {w : Nat} {s : List Char} (h : IsMotzkin w s) :
    PrefixBalanced s :=
  (prefixBalanced_iff s).mpr h.bal_facts.2

/-- Grammar paths satisfy the spec's total-balance invariant. -/
theorem IsMotzkin.totalBalanced {w : Nat} {s : List Char} (h : IsMotzkin w s) :
    TotalBalanced s :=
  (totalBalanced_iff s).mpr h.bal_facts.1

theorem getElem?_append_lt {l1 l2 : List Char} {n : Nat} (h : n < l1.length) :
    (l1 ++ l2)[n]? = l1[n]? := by
  rw [List.getElem?_append]
  simp [h]

theorem getElem?_append_ge {l1 l2 : List Char} {n : Nat} (h : l1.length ≤ n) :
    (l1 ++ l2)[n]? = l2[n - l1.length]? := by
  rw [List.getElem?_append]
  simp [Nat.not_lt.mpr h]

theorem getElem?_cons_ge (c : Char) (t : List Char) {i : Nat} (h : 1 ≤ i) :
    (c :: t)[i]? = t[i - 1]? := by
  match i, h with
  | i + 1, _ => simp

theorem subpath_zero (x : List Char) (b : Nat) : subpath x 0 b = x.take b := by
  simp [subpath]

theorem subpath_cons (c : Char) (t : List Char) (a b : Nat) (ha : 1 ≤ a) :
    subpath (c :: t) a b = subpath t (a - 1) (b - 1) := by
  match a, ha with
  | a + 1, _ =>
      unfold subpath
      rw [List.drop_succ_cons]
      simp only [Nat.add_sub_cancel]
      congr 1
      omega

theorem subpath_append_left (x y : List Char) (a b : Nat) (hb : b ≤ x.length) :
    subpath (x ++ y) a b = subpath x a b := by
  unfold subpath
  rw [List.drop_append_eq_append_drop, List.take_append_eq_append_take]
  have h1 : b - a - (x.drop a).length = 0 := by
    rw [List.length_drop]
    omega
  have h2 : (y.drop (a - x.length)).take 0 = [] := List.take_zero _
  rw [h1, h2, List.append_nil]

theorem subpath_append_right (x y : List Char) (a b : Nat) (ha : x.length ≤ a) :
    subpath (x ++ y) a b = subpath y (a - x.length) (b - x.length) := by
  unfold subpath
  rw [List.drop_append_eq_append_drop, List.drop_eq_nil_of_le ha, List.nil_append]
  congr 1
  omega

theorem subpath_all (x : List Char) (a b : Nat) (h : x.length ≤ b) :
    subpath x a b = x.drop a := by
  unfold subpath
  apply List.take_of_length_le
  rw [List.length_drop]
  omega

theorem take_succ_getElem {x : List Char} {i : Nat} {c : Char} (h : x[i]? = some c) :
    x.take (i + 1) = x.take i ++ [c] := by
  rw [List.take_succ, h]
  rfl

/-- Grammar paths satisfy the spec's minimum-width invariant: every
matched pair encloses a sub-path of length at least `w`. -/
theorem IsMotzkin.minWidth {w : Nat} {s : List Char} (h : IsMotzkin w s) :
    MinWidthOK w s := by
  induction h with
  | nil =>
      intro i j hm
      have := hm.2.1
      simp at this
  | @dot t _ ih =>
      intro i j hm
      obtain ⟨hij, hgi, hgj, hbal⟩ := hm
      have hi1 : 1 ≤ i := by
        by_contra hc
        have hi0 : i = 0 := by omega
        subst hi0
        have h0 : (('.' :: t))[0]? = some '.' := by simp
        rw [h0] at hgi
        exact absurd hgi (by decide)
      have hstep : subpath ('.' :: t) (i + 1) j = subpath t i (j - 1) := by
        rw [subpath_cons '.' t (i + 1) j (by omega)]
        simp only [Nat.add_sub_cancel]
      have hm' : MatchedPair t (i - 1) (j - 1) := by
        refine ⟨by omega, ?_, ?_, ?_⟩
        · rw [getElem?_cons_ge '.' t hi1] at hgi
          exact hgi
        · rw [getElem?_cons_ge '.' t (by omega)] at hgj
          exact hgj
        · have e : i - 1 + 1 = i := by omega
          rw [e, ← hstep]
          exact hbal
      have hw := ih (i - 1) (j - 1) hm'
      have e : i - 1 + 1 = i := by omega
      rw [e] at hw
      rw [hstep]
      exact hw
  | @wrap u v hu hv hlen ihu ihv =>
      intro i j hm
      obtain ⟨hij, hgi, hgj, hbal⟩ := hm
      obtain ⟨hu0, hup⟩ := hu.bal_facts
      obtain ⟨hv0, hvp⟩ := hv.bal_facts
      have hstep : subpath ('(' :: (u ++ ')' :: v)) (i + 1) j
          = subpath (u ++ ')' :: v) i (j - 1) := by
        rw [subpath_cons '(' (u ++ ')' :: v) (i + 1) j (by omega)]
        simp only [Nat.add_sub_cancel]
      rcases Nat.eq_zero_or_pos i with rfl | hipos
      · rcases Nat.lt_or_ge j (u.length + 1) with hjlt | hjge
        · exfalso
          have hj1 : 1 ≤ j := by omega
          have hgj' : u[j - 1]? = some ')' := by
            rw [getElem?_cons_ge '(' (u ++ ')' :: v) hj1,
              getElem?_append_lt (by omega)] at hgj
            exact hgj
          have hsl : subpath ('(' :: (u ++ ')' :: v)) (0 + 1) j = u.take (j - 1) := by
            rw [hstep, subpath_append_left _ _ _ _ (by omega), subpath_zero]
          rw [hsl] at hbal
          have ht0 : bal (u.take (j - 1)) = 0 := (totalBalanced_iff _).mp hbal.2
          have htk : u.take (j - 1 + 1) = u.take (j - 1) ++ [')'] := take_succ_getElem hgj'
          have hk := hup (j - 1 + 1)
          rw [htk, bal_append, bal_close] at hk
          omega
        · rcases Nat.eq_or_lt_of_le hjge with hjeq | hjgt
          · have hsl : subpath ('(' :: (u ++ ')' :: v)) (0 + 1) j = u := by
              rw [hstep, ← hjeq]
              simp only [Nat.add_sub_cancel]
              rw [subpath_append_left _ _ _ _ (Nat.le_refl _), subpath_zero,
                List.take_length]
            rw [hsl]
            exact hlen
          · exfalso
            have hP := (prefixBalanced_iff _).mp hbal.1 (u.length + 1)
            have hsl : subpath ('(' :: (u ++ ')' :: v)) (0 + 1) j
                = (u ++ ')' :: v).take (j - 1) := by
              rw [hstep, subpath_zero]
            rw [hsl, List.take_take] at hP
            have hmin : min (u.length + 1) (j - 1) = u.length + 1 := by
              apply Nat.min_eq_left
              omega
            rw [hmin, List.take_append_eq_append_take,
              List.take_of_length_le (by omega)] at hP
            have h1 : u.length + 1 - u.length = 1 := by omega
            rw [h1] at hP
            have h2 : (')' :: v).take 1 = [')'] := rfl
            rw [h2, bal_append, bal_close] at hP
            omega
      · rcases Nat.lt_or_ge i (u.length + 1) with hiU | hiU2
        · have hgi' : u[i - 1]? = some '(' := by
            rw [getElem?_cons_ge '(' (u ++ ')' :: v) hipos,
              getElem?_append_lt (by omega)] at hgi
            exact hgi
          rcases Nat.lt_or_ge j (u.length + 1) with hjU | hjge2
          · have hsl : subpath ('(' :: (u ++ ')' :: v)) (i + 1) j
                = subpath u i (j - 1) := by
              rw [hstep, subpath_append_left _ _ _ _ (by omega)]
            have hm' : MatchedPair u (i - 1) (j - 1) := by
              refine ⟨by omega, hgi', ?_, ?_⟩
              · rw [getElem?_cons_ge '(' (u ++ ')' :: v) (by omega),
                  getElem?_append_lt (by omega)] at hgj
                exact hgj
              · have e : i - 1 + 1 = i := by omega
                rw [e, ← hsl]
                exact hbal
            have hw := ihu (i - 1) (j - 1) hm'
            have e : i - 1 + 1 = i := by omega
            rw [e] at hw
            rw [hsl]
            exact hw
          · rcases Nat.eq_or_lt_of_le hjge2 with hjeq | hjgt
            · exfalso
              have hsl : subpath ('(' :: (u ++ ')' :: v)) (i + 1) j = u.drop i := by
                rw [hstep, ← hjeq]
                simp only [Nat.add_sub_cancel]
                rw [subpath_append_left _ _ _ _ (Nat.le_refl _),
                  subpath_all _ _ _ (Nat.le_refl _)]
              rw [hsl] at hbal
              have hd0 : bal (u.drop i) = 0 := (totalBalanced_iff _).mp hbal.2
              have hsplit := congrArg bal (List.take_append_drop i u)
              rw [bal_append] at hsplit
              have htk : u.take (i - 1 + 1) = u.take (i - 1) ++ ['('] :=
                take_succ_getElem hgi'
              have e : i - 1 + 1 = i := by omega
              rw [e] at htk
              have hk := hup (i - 1)
              rw [htk, bal_append, bal_open] at hsplit
              omega
            · exfalso
              have hP := (prefixBalanced_iff _).mp hbal.1 (u.length - i + 1)
              have hdropM : (u ++ ')' :: v).drop i = u.drop i ++ ')' :: v := by
                rw [List.drop_append_eq_append_drop]
                have e : i - u.length = 0 := by omega
                rw [e]
                rfl
              have hsl : subpath ('(' :: (u ++ ')' :: v)) (i + 1) j
                  = (u.drop i ++ ')' :: v).take (j - 1 - i) := by
                rw [hstep]
                unfold subpath
                rw [hdropM]
              rw [hsl, List.take_take] at hP
              have hmin : min (u.length - i + 1) (j - 1 - i) = u.length - i + 1 := by
                apply Nat.min_eq_left
                omega
              rw [hmin, List.take_append_eq_append_take,
                List.take_of_length_le (by rw [List.length_drop]; omega)] at hP
              have h1 : u.length - i + 1 - (u.drop i).length = 1 := by
                rw [List.length_drop]
                omega
              rw [h1] at hP
              have h2 : (')' :: v).take 1 = [')'] := rfl
              rw [h2, bal_append, bal_close] at hP
              have hsplit := congrArg bal (List.take_append_drop i u)
              rw [bal_append] at hsplit
              have hk := hup i
              omega
        · rcases Nat.eq_or_lt_of_le hiU2 with hieq | higt
          · exfalso
            rw [← hieq] at hgi
            rw [getElem?_cons_ge '(' (u ++ ')' :: v) (by omega)] at hgi
            simp only [Nat.add_sub_cancel] at hgi
            rw [getElem?_append_ge (Nat.le_refl _)] at hgi
            rw [Nat.sub_self] at hgi
            have h0 : ((')' :: v))[0]? = some ')' := by simp
            rw [h0] at hgi
            exact absurd hgi (by decide)
          · have hs : ('(' : Char) :: (u ++ ')' :: v) = ('(' :: (u ++ [')'])) ++ v := by
              simp
            have hPlen : ('(' :: (u ++ [')'])).length = u.length + 2 := by
              simp
            rw [hs] at hgi hgj
            rw [getElem?_append_ge (by rw [hPlen]; omega)] at hgi
            rw [getElem?_append_ge (by rw [hPlen]; omega)] at hgj
            rw [hPlen] at hgi hgj
            have hsl : subpath (('(' :: (u ++ [')'])) ++ v) (i + 1) j
                = subpath v (i + 1 - (u.length + 2)) (j - (u.length + 2)) := by
              rw [subpath_append_right _ _ _ _ (by rw [hPlen]; omega), hPlen]
            rw [hs, hsl] at hbal
            have hm' : MatchedPair v (i - (u.length + 2)) (j - (u.length + 2)) := by
              refine ⟨by omega, hgi, hgj, ?_⟩
              have e : i - (u.length + 2) + 1 = i + 1 - (u.length + 2) := by omega
              rw [e]
              exact hbal
            have hw := ihv _ _ hm'
            have e : i - (u.length + 2) + 1 = i + 1 - (u.length + 2) := by omega
            rw [e] at hw
            rw [hs, hsl]
            exact hw

/-- C5: every string produced by the enumerator satisfies the three path
invariants for the requested minwidth: prefix-balance, total balance, and
minimum width (every matched pair encloses a sub-path of length at least
minwidth, counting all enclosed symbols). -/
theorem motzkin_sequences_valid (length minwidth : Nat) (s : List Char)
    (h : s ∈ motzkin_sequences length minwidth) :
    PrefixBalanced s ∧ TotalBalanced s ∧ MinWidthOK minwidth s :=
  have hm := motzkin_sequences_isMotzkin length minwidth s h
  ⟨hm.prefixBalanced, hm.totalBalanced, hm.minWidth⟩

/-- Witness for C5 at the produced string `(.(...))` of `enumerate(8, 3)`. -/
theorem motzkin_sequences_valid_witness :
    (['(', '.', '(', '.', '.', '.', ')', ')'] ∈ motzkin_sequences 8 3) ∧
      (PrefixBalanced ['(', '.', '(', '.', '.', '.', ')', ')'] ∧
        TotalBalanced ['(', '.', '(', '.', '.', '.', ')', ')'] ∧
        MinWidthOK 3 ['(', '.', '(', '.', '.', '.', ')', ')']) :=
  ⟨by decide, motzkin_sequences_valid 8 3 _ (by decide)⟩

/-- C6: the strings produced by a single invocation of the enumerator are
pairwise distinct. -/
theorem motzkin_sequences_nodup (length minwidth : Nat) :
    (motzkin_sequences length minwidth).Nodup := by
  induction length using Nat.strong_induction_on with
  | _ n ih =>
    match n with
    | 0 => rw [motzkin_sequences_zero]; exact List.nodup_singleton []
    | m + 1 =>
        rw [motzkin_sequences_succ, List.nodup_append]
        refine ⟨?_, ?_, ?_⟩
        · apply List.Nodup.map ?_ (ih m (by omega))
          intro a b hab
          injection hab
        · rw [List.nodup_join]
          constructor
          · intro G hG
            rcases List.mem_map.mp hG with ⟨inner, hinner, rfl⟩
            have hb := List.mem_range'_1.mp hinner
            rw [List.nodup_bind]
            constructor
            · intro inside _
              apply List.Nodup.map ?_ (ih (m - 1 - inner) (by omega))
              intro a b hab
              injection hab with _ hab
              have := List.append_cancel_left hab
              injection this
            · apply List.Pairwise.imp_of_mem ?_ (ih inner (by omega))
              intro ins1 ins2 h1 h2 hne
              intro x hx1 hx2
              rcases List.mem_map.mp hx1 with ⟨a1, _, rfl⟩
              rcases List.mem_map.mp hx2 with ⟨a2, _, heq⟩
              injection heq with _ heq
              have hl1 := motzkin_sequences_mem_length inner minwidth ins1 h1
              have hl2 := motzkin_sequences_mem_length inner minwidth ins2 h2
              have := (List.append_inj heq.symm (hl1.trans hl2.symm)).1
              exact hne this
          · refine List.Pairwise.map _ (fun inner1 inner2 hlt => ?_)
              (List.pairwise_lt_range' minwidth (m - minwidth) 1 (by omega))
            intro x hx1 hx2
            rcases List.mem_bind.mp hx1 with ⟨ins1, hins1, hm1⟩
            rcases List.mem_map.mp hm1 with ⟨a1, _, rfl⟩
            rcases List.mem_bind.mp hx2 with ⟨ins2, hins2, hm2⟩
            rcases List.mem_map.mp hm2 with ⟨a2, _, heq⟩
            injection heq with _ heq
            have hl1 := motzkin_sequences_mem_length inner1 minwidth ins1 hins1
            have hl2 := motzkin_sequences_mem_length inner2 minwidth ins2 hins2
            obtain ⟨hb10, _⟩ :=
              (motzkin_sequences_isMotzkin inner1 minwidth ins1 hins1).bal_facts
            obtain ⟨_, hb2p⟩ :=
              (motzkin_sequences_isMotzkin inner2 minwidth ins2 hins2).bal_facts
            -- heq : ins2 ++ ')' :: a2 = ins1 ++ ')' :: a1, with ins1 shorter
            have htake : ins1 = ins2.take inner1 := by
              have h1 : (ins1 ++ ')' :: a1).take inner1 = ins1 := List.take_left' hl1
              have h2 : (ins2 ++ ')' :: a2).take inner1 = ins2.take inner1 := by
                rw [List.take_append_eq_append_take]
                have e : inner1 - ins2.length = 0 := by omega
                rw [e, List.take_zero, List.append_nil]
              rw [← h1, ← h2, heq]
            have hget : ins2[inner1]? = some ')' := by
              have h1 : (ins1 ++ ')' :: a1)[inner1]? = some ')' := by
                rw [getElem?_append_ge (by omega)]
                have e : inner1 - ins1.length = 0 := by omega
                rw [e]
                simp
              have h2 : (ins2 ++ ')' :: a2)[inner1]? = ins2[inner1]? :=
                getElem?_append_lt (by omega)
              rw [← h2, heq, h1]
            have htk : ins2.take (inner1 + 1) = ins2.take inner1 ++ [')'] :=
              take_succ_getElem hget
            have hk := hb2p (inner1 + 1)
            rw [htk, ← htake, bal_append, bal_close] at hk
            omega
        · intro x hx1 hx2
          rcases List.mem_map.mp hx1 with ⟨t, _, rfl⟩
          rcases List.mem_join.mp hx2 with ⟨G, hG, hxG⟩
          rcases List.mem_map.mp hG with ⟨inner, _, rfl⟩
          rcases List.mem_bind.mp hxG with ⟨inside, _, hmem⟩
          rcases List.mem_map.mp hmem with ⟨after, _, heq⟩
          injection heq with h1 _
          exact absurd h1 (by decide)

/-- Python `range(a, b)` over integers, as a list. -/
def intRange (a b : Int) : List Int :=
  (List.range (b - a).toNat).map (fun (k : Nat) => a + (k : Int))

/-- The memo dictionary of `motzkinlengthk`: an association list from
length to cached count.  Python's mutable default argument `memoize={0: 1}`
is one such object shared by every top-level call; insertion prepends, and
lookup finds the newest entry, matching dict update/lookup. -/
abbrev Memo : Type := List (Int × Int)

/-- The initial memo object `{0: 1}` of the default argument. -/
def initMemo : Memo := [(0, 1)]

/-- The summation loop of `motzkinlengthk` (`for length_inside_first_set in
range(width, (length-2)+1): ...`), threading the shared memo through the
two recursive calls of each iteration and accumulating
`stuff_in_first_set * stuff_after_first_set`.  `f` is the recursive call. -/
def memoLoop (f : Int → Memo → Option (Int × Memo)) (length : Int) :
    List Int → Int → Memo → Option (Int × Memo)
  | [], acc, memo => some (acc, memo)
  | inner :: rest, acc, memo =>
      match f inner memo with
      | none => none
      | some (x, m1) =>
          match f (length - 2 - inner) m1 with
          | none => none
          | some (y, m2) => memoLoop f length rest (acc + x * y) m2

/-- Faithful embedding of `motzkinlengthk(length, width, memoize)`: integer
arguments, the shared memo threaded through and extended, and a fuel bound
as recursion-depth budget - `none` means the Python call does not terminate
(it would exhaust any recursion depth).  The memo is consulted first, keyed
by length only, exactly as in the source. -/
def motzkinMemoF (width : Int) : Nat → Int → Memo → Option (Int × Memo)
  | 0, _, _ => none
  | fuel + 1, length, memo =>
      match List.lookup length memo with
      | some v => some (v, memo)
      | none =>
          match motzkinMemoF width fuel (length - 1) memo with
          | none => none
          | some (s1, m1) =>
              match memoLoop (motzkinMemoF width fuel) length
                  (intRange width (length - 1)) 0 m1 with
              | none => none
              | some (sc, m2) => some (s1 + sc, (length, s1 + sc) :: m2)

/-- The inner loop of the generator `motzkin_sequences` (`for
length_inside_first_set in range(minwidth, length-2+1): ...`), draining the
inside and after sub-generators and producing the group of paths for each
inner length.  `f` is the recursive call. -/
def seqLoopF (f : Int → Int → Option (List (List Char))) (length minwidth : Int) :
    List Int → Option (List (List (List Char)))
  | [] => some []
  | inner :: rest =>
      match f inner minwidth with
      | none => none
      | some inside =>
          match f (length - 2 - inner) minwidth with
          | none => none
          | some after =>
              match seqLoopF f length minwidth rest with
              | none => none
              | some groups =>
                  some ((inside.bind fun i =>
                    after.map fun a => '(' :: (i ++ ')' :: a)) :: groups)

/-- Faithful embedding of a full drain of the generator
`motzkin_sequences(length, minwidth)`: integer arguments and a fuel bound
as recursion-depth budget - `none` means draining the generator does not
terminate.  The generator reads no shared state: its output is determined
by its two arguments alone. -/
def motzkinSeqF : Nat → Int → Int → Option (List (List Char))
  | 0, _, _ => none
  | fuel + 1, length, minwidth =>
      if length = 0 then some [[]]
      else
        match motzkinSeqF fuel (length - 1) minwidth with
        | none => none
        | some prev =>
            match seqLoopF (motzkinSeqF fuel) length minwidth
                (intRange minwidth (length - 1)) with
            | none => none
            | some groups => some (prev.map (fun s => '.' :: s) ++ groups.join)

/-- A memo whose keys are all non-negative never answers a negative
length. -/
theorem memo_lookup_neg {memo : Memo} (h : ∀ p ∈ memo, 0 ≤ p.1) {l : Int}
    (hl : l < 0) : List.lookup l memo = none := by
  induction memo with
  | nil => rfl
  | cons p rest ih =>
      obtain ⟨k, v⟩ := p
      have hk := h (k, v) (List.mem_cons_self _ _)
      have hne : (l == k) = false := by
        simp only [beq_eq_false_iff_ne, ne_eq]
        intro he
        rw [he] at hl
        exact absurd hk (by omega)
      rw [List.lookup_cons, hne]
      exact ih (fun q hq => h q (List.mem_cons_of_mem _ hq))

/-- The counter diverges on any negative length (no validation, unbounded
recursion): no fuel suffices. -/
theorem motzkinMemoF_neg (width : Int) :
    ∀ (fuel : Nat) (l : Int) (memo : Memo), l < 0 → (∀ p ∈ memo, 0 ≤ p.1) →
      motzkinMemoF width fuel l memo = none := by
  intro fuel
  induction fuel with
  | zero => intros; rfl
  | succ fuel ih =>
      intro l memo hl hmemo
      unfold motzkinMemoF
      rw [memo_lookup_neg hmemo hl, ih (l - 1) memo (by omega) hmemo]

/-- The generator diverges on any negative length: no fuel suffices to
drain it. -/
theorem motzkinSeqF_neg :
    ∀ (fuel : Nat) (l w : Int), l < 0 → motzkinSeqF fuel l w = none := by
  intro fuel
  induction fuel with
  | zero => intros; rfl
  | succ fuel ih =>
      intro l w hl
      unfold motzkinSeqF
      rw [if_neg (by omega), ih (l - 1) w (by omega)]

theorem motzkinSeqF_one_negtwo (fuel : Nat) : motzkinSeqF fuel 1 (-2) = none := by
  cases fuel with
  | zero => rfl
  | succ fuel =>
      unfold motzkinSeqF
      rw [if_neg (by omega)]
      cases hprev : motzkinSeqF fuel (1 - 1) (-2) with
      | none => rfl
      | some prev =>
          have hr : intRange (-2) ((1 : Int) - 1) = [-2, -1] := by decide
          rw [hr]
          unfold seqLoopF
          rw [motzkinSeqF_neg fuel (-2) (-2) (by omega)]

theorem motzkinSeqF_two_negtwo (fuel : Nat) : motzkinSeqF fuel 2 (-2) = none := by
  cases fuel with
  | zero => rfl
  | succ fuel =>
      unfold motzkinSeqF
      rw [if_neg (by omega)]
      have e : (2 : Int) - 1 = 1 := by decide
      rw [e, motzkinSeqF_one_negtwo fuel]

theorem motzkinSeqF_three_negtwo (fuel : Nat) : motzkinSeqF fuel 3 (-2) = none := by
  cases fuel with
  | zero => rfl
  | succ fuel =>
      unfold motzkinSeqF
      rw [if_neg (by omega)]
      have e : (3 : Int) - 1 = 2 := by decide
      rw [e, motzkinSeqF_two_negtwo fuel]

/-- The memo object left behind by the first top-level call
`motzkinlengthk(3, 0)` on the default argument. -/
def memoAfterWidth0 : Memo :=
  ((motzkinMemoF 0 8 3 initMemo).map Prod.snd).getD initMemo

/-- C3: the counter's cache is keyed by length only and shared across
widths.  In one process, `count(3, 0)` returns 4 and populates the shared
memo; the subsequent call `count(3, 1)` silently reuses the cached entry
and also returns 4, although the recurrence for width 1 yields
`count(3, 1) = 2`. -/
theorem motzkin_cache_shared_across_widths :
    (motzkinMemoF 0 8 3 initMemo).map Prod.fst = some 4 ∧
      (motzkinMemoF 1 1 3 memoAfterWidth0).map Prod.fst = some 4 ∧
      motzkinlengthk 3 1 = 2 :=
  ⟨by decide, by decide, by decide⟩

/-- Draining the generator is monotone in the fuel budget: once it
completes within some budget, any larger budget gives the same output. -/
theorem motzkinSeqF_mono :
    ∀ (f f' : Nat), f ≤ f' → ∀ (l w : Int) (r : List (List Char)),
      motzkinSeqF f l w = some r → motzkinSeqF f' l w = some r := by
  intro f
  induction f with
  | zero =>
      intro f' _ l w r h
      exact absurd h (by rw [show motzkinSeqF 0 l w = none from rfl]; simp)
  | succ f ih =>
      intro f' hff l w r h
      match f', hff with
      | f' + 1, hff =>
          have hf : f ≤ f' := by omega
          unfold motzkinSeqF at h ⊢
          by_cases h0 : l = 0
          · rw [if_pos h0] at h ⊢
            exact h
          · rw [if_neg h0] at h ⊢
            cases hprev : motzkinSeqF f (l - 1) w with
            | none => rw [hprev] at h; exact absurd h (by simp)
            | some prev =>
                rw [hprev] at h
                rw [ih f' hf (l - 1) w prev hprev]
                cases hloop : seqLoopF (motzkinSeqF f) l w (intRange w (l - 1)) with
                | none => rw [hloop] at h; exact absurd h (by simp)
                | some groups =>
                    rw [hloop] at h
                    have hloop' : seqLoopF (motzkinSeqF f') l w (intRange w (l - 1))
                        = some groups := by
                      clear h
                      revert groups
                      generalize intRange w (l - 1) = li
                      intro groups hl2
                      induction li generalizing groups with
                      | nil => exact hl2
                      | cons inner rest ihli =>
                          unfold seqLoopF at hl2 ⊢
                          cases h1 : motzkinSeqF f inner w with
                          | none => rw [h1] at hl2; exact absurd hl2 (by simp)
                          | some inside =>
                              rw [h1] at hl2
                              rw [ih f' hf inner w inside h1]
                              cases h2 : motzkinSeqF f (l - 2 - inner) w with
                              | none => rw [h2] at hl2; exact absurd hl2 (by simp)
                              | some after =>
                                  rw [h2] at hl2
                                  rw [ih f' hf (l - 2 - inner) w after h2]
                                  cases h3 : seqLoopF (motzkinSeqF f) l w rest with
                                  | none => rw [h3] at hl2; exact absurd hl2 (by simp)
                                  | some groups' =>
                                      rw [h3] at hl2
                                      rw [ihli groups' h3]
                                      exact hl2
                    rw [hloop']
                    exact h

/-- `intRange` on natural bounds is the cast of `List.range'`. -/
theorem intRange_natCast (a b : Nat) :
    intRange (a : Int) (b : Int)
      = (List.range' a (b - a)).map (fun (k : Nat) => (k : Int)) := by
  unfold intRange
  rw [show ((b : Int) - a).toNat = b - a from Int.toNat_sub b a,
    List.range'_eq_map_range a (b - a), List.map_map]
  apply List.map_congr_left
  intro k _
  simp

/-- With enough fuel, a drain of the generator model produces exactly the
pure enumerator's list. -/
theorem motzkinSeqF_eq (n : Nat) :
    ∀ (w f : Nat), n + 1 ≤ f →
      motzkinSeqF f (n : Int) (w : Int) = some (motzkin_sequences n w) := by
  induction n using Nat.strong_induction_on with
  | _ n ih =>
    match n with
    | 0 =>
        intro w f hf
        match f, hf with
        | f + 1, _ =>
            unfold motzkinSeqF
            rw [if_pos (by simp), motzkin_sequences_zero]
    | m + 1 =>
        intro w f hf
        match f, hf with
        | f + 1, _ =>
            have hf' : m + 1 ≤ f := by omega
            unfold motzkinSeqF
            rw [if_neg (by omega)]
            have e1 : (((m + 1 : Nat)) : Int) - 1 = (m : Int) := by push_cast; ring
            rw [e1, ih m (by omega) w f hf', intRange_natCast w m]
            have hloop : seqLoopF (motzkinSeqF f) (((m + 1 : Nat)) : Int) (w : Int)
                ((List.range' w (m - w)).map (fun (k : Nat) => (k : Int)))
                = some ((List.range' w (m - w)).map (fun inner =>
                    (motzkin_sequences inner w).bind (fun inside =>
                      (motzkin_sequences (m - 1 - inner) w).map (fun after =>
                        '(' :: (inside ++ ')' :: after))))) := by
              have hmem : ∀ i ∈ List.range' w (m - w), w ≤ i ∧ i ≤ m - 1 ∧ 1 ≤ m := by
                intro i hi
                have := List.mem_range'_1.mp hi
                omega
              revert hmem
              generalize List.range' w (m - w) = li
              induction li with
              | nil => intro _; rfl
              | cons inner rest ihli =>
                  intro hmem
                  obtain ⟨hwi, him, hm1⟩ := hmem inner (List.mem_cons_self _ _)
                  rw [List.map_cons]
                  unfold seqLoopF
                  rw [ih inner (by omega) w f (by omega)]
                  have e3 : (((m + 1 : Nat)) : Int) - 2 - (inner : Int)
                      = ((m - 1 - inner : Nat) : Int) := by omega
                  rw [e3, ih (m - 1 - inner) (by omega) w f (by omega),
                    ihli (fun i hi => hmem i (List.mem_cons_of_mem _ hi)),
                    List.map_cons]
            rw [hloop, motzkin_sequences_succ w m]

/-- C9: two separate invocations of the enumerator with the same arguments
are independent and deterministic: any two complete drains (with arbitrary
independent internal resources) yield the same strings in the same order,
and that common output is exactly `motzkin_sequences length minwidth` - the
generator reads no shared mutable state. -/
theorem motzkin_enumerate_independent (length minwidth : Nat) (f1 f2 : Nat)
    (o1 o2 : List (List Char))
    (h1 : motzkinSeqF f1 (length : Int) (minwidth : Int) = some o1)
    (h2 : motzkinSeqF f2 (length : Int) (minwidth : Int) = some o2) :
    o1 = o2 ∧ motzkinSeqF (length + 1) (length : Int) (minwidth : Int)
      = some (motzkin_sequences length minwidth) := by
  constructor
  · rcases Nat.le_total f1 f2 with hle | hle
    · have := motzkinSeqF_mono f1 f2 hle _ _ o1 h1
      rw [this] at h2
      exact Option.some.inj h2
    · have := motzkinSeqF_mono f2 f1 hle _ _ o2 h2
      rw [this] at h1
      exact (Option.some.inj h1).symm
  · exact motzkinSeqF_eq length minwidth (length + 1) (Nat.le_refl _)

/-- Witness for C9 at length 2, minwidth 0, with fuel budgets 3 and 5. -/
theorem motzkin_enumerate_independent_witness :
    (motzkinSeqF 3 ((2 : Nat) : Int) ((0 : Nat) : Int)
        = some [['.', '.'], ['(', ')']]) ∧
      (motzkinSeqF 5 ((2 : Nat) : Int) ((0 : Nat) : Int)
        = some [['.', '.'], ['(', ')']]) ∧
      ([['.', '.'], ['(', ')']] = [['.', '.'], ['(', ')']] ∧
        motzkinSeqF (2 + 1) ((2 : Nat) : Int) ((0 : Nat) : Int)
          = some (motzkin_sequences 2 0)) :=
  ⟨by decide, by decide,
    motzkin_enumerate_independent 2 0 3 5 _ _ (by decide) (by decide)⟩

theorem mem_of_lookup_some {memo : Memo} {a b : Int}
    (h : List.lookup a memo = some b) : (a, b) ∈ memo := by
  induction memo with
  | nil => exact absurd h (by simp [List.lookup])
  | cons p rest ih =>
      obtain ⟨k, v⟩ := p
      rw [List.lookup_cons] at h
      cases hk : (a == k) with
      | true =>
          rw [hk] at h
          have hab : v = b := by
            simpa using h
          have hak : a = k := by
            have := hk
            simp only [beq_iff_eq] at this
            exact this
          subst hab
          subst hak
          exact List.mem_cons_self _ _
      | false =>
          rw [hk] at h
          simp only at h
          exact List.mem_cons_of_mem _ (ih h)

/-- The summation loop is monotone in its recursive-call function. -/
theorem memoLoop_mono (g g' : Int → Memo → Option (Int × Memo))
    (hg : ∀ a b r, g a b = some r → g' a b = some r) (length : Int) :
    ∀ (li : List Int) (acc : Int) (memo : Memo) (r : Int × Memo),
      memoLoop g length li acc memo = some r →
        memoLoop g' length li acc memo = some r := by
  intro li
  induction li with
  | nil => intro acc memo r h; exact h
  | cons inner rest ihli =>
      intro acc memo r h
      unfold memoLoop at h ⊢
      cases h1 : g inner memo with
      | none =>
          simp only [h1] at h
          exact absurd h (by simp)
      | some pr =>
          obtain ⟨x, mm1⟩ := pr
          simp only [h1] at h
          simp only [hg inner memo (x, mm1) h1]
          cases h2 : g (length - 2 - inner) mm1 with
          | none =>
              simp only [h2] at h
              exact absurd h (by simp)
          | some pr2 =>
              obtain ⟨y, mm2⟩ := pr2
              simp only [h2] at h
              simp only [hg (length - 2 - inner) mm1 (y, mm2) h2]
              exact ihli (acc + x * y) mm2 r h

/-- The counter model is monotone in the fuel budget. -/
theorem motzkinMemoF_mono :
    ∀ (f f' : Nat), f ≤ f' → ∀ (wi l : Int) (memo : Memo) (r : Int × Memo),
      motzkinMemoF wi f l memo = some r → motzkinMemoF wi f' l memo = some r := by
  intro f
  induction f with
  | zero =>
      intro f' _ wi l memo r h
      exact absurd h (by rw [show motzkinMemoF wi 0 l memo = none from rfl]; simp)
  | succ f ih =>
      intro f' hff wi l memo r h
      match f', hff with
      | f' + 1, hff =>
          have hf : f ≤ f' := by omega
          unfold motzkinMemoF at h ⊢
          cases hl : List.lookup l memo with
          | some v =>
              simp only [hl] at h
              simp only [hl]
              exact h
          | none =>
              simp only [hl] at h
              simp only [hl]
              cases hprev : motzkinMemoF wi f (l - 1) memo with
              | none =>
                  simp only [hprev] at h
                  exact absurd h (by simp)
              | some pr =>
                  obtain ⟨s1, m1⟩ := pr
                  simp only [hprev] at h
                  simp only [ih f' hf wi (l - 1) memo (s1, m1) hprev]
                  cases hloop : memoLoop (motzkinMemoF wi f) l
                      (intRange wi (l - 1)) 0 m1 with
                  | none =>
                      simp only [hloop] at h
                      exact absurd h (by simp)
                  | some pr2 =>
                      obtain ⟨sc, m2⟩ := pr2
                      simp only [hloop] at h
                      simp only [memoLoop_mono (motzkinMemoF wi f) (motzkinMemoF wi f')
                        (fun a b c => ih f' hf wi a b c) l (intRange wi (l - 1)) 0 m1
                        (sc, m2) hloop]
                      exact h

/-- Invariant of the shared memo during single-width use: every entry
caches the true count for its length at width `w`, and the base entry for
length 0 is present (true of the initial `{0: 1}` and preserved, since
entries are only added). -/
def GoodMemo (w : Nat) (memo : Memo) : Prop :=
  (∀ p ∈ memo, ∃ k : Nat, p.1 = (k : Int) ∧ p.2 = (motzkinlengthk k w : Int)) ∧
    (∃ v, List.lookup (0 : Int) memo = some v)

/-- The summation loop computes the recurrence's summation term and
preserves the memo invariant, provided the recursive call does. -/
theorem memoLoop_correct (w : Nat) (g : Int → Memo → Option (Int × Memo))
    (length : Nat)
    (hgcall : ∀ (k : Nat) (memo : Memo), k ≤ length - 2 → GoodMemo w memo →
      ∃ memo', g (k : Int) memo = some ((motzkinlengthk k w : Int), memo')
        ∧ GoodMemo w memo') :
    ∀ (li : List Nat), (∀ i ∈ li, i ≤ length - 2 ∧ 2 ≤ length) →
      ∀ (acc : Int) (memo : Memo), GoodMemo w memo →
        ∃ memo', memoLoop g (length : Int) (li.map (fun (k : Nat) => (k : Int))) acc memo
            = some (acc + (((li.map (fun i =>
                motzkinlengthk i w * motzkinlengthk (length - 2 - i) w)).sum : Nat) : Int),
              memo')
          ∧ GoodMemo w memo' := by
  intro li
  induction li with
  | nil =>
      intro _ acc memo hgood
      refine ⟨memo, ?_, hgood⟩
      simp [memoLoop]
  | cons i rest ihli =>
      intro hbound acc memo hgood
      obtain ⟨hi, hlen2⟩ := hbound i (List.mem_cons_self _ _)
      obtain ⟨mi, hgi, hgoodi⟩ := hgcall i memo hi hgood
      obtain ⟨mi2, hgi2, hgoodi2⟩ := hgcall (length - 2 - i) mi (by omega) hgoodi
      obtain ⟨memo', hrec, hgood'⟩ :=
        ihli (fun a ha => hbound a (List.mem_cons_of_mem _ ha))
          (acc + (motzkinlengthk i w : Int) * (motzkinlengthk (length - 2 - i) w : Int))
          mi2 hgoodi2
      refine ⟨memo', ?_, hgood'⟩
      rw [List.map_cons]
      unfold memoLoop
      have e2 : (length : Int) - 2 - (i : Int) = ((length - 2 - i : Nat) : Int) := by
        omega
      simp only [hgi, e2, hgi2]
      rw [hrec, List.map_cons, List.sum_cons]
      have hval : acc + (motzkinlengthk i w : Int) * (motzkinlengthk (length - 2 - i) w : Int)
          + (((rest.map (fun i =>
              motzkinlengthk i w * motzkinlengthk (length - 2 - i) w)).sum : Nat) : Int)
          = acc + ((motzkinlengthk i w * motzkinlengthk (length - 2 - i) w
              + (rest.map (fun i =>
                motzkinlengthk i w * motzkinlengthk (length - 2 - i) w)).sum : Nat) : Int) := by
        push_cast
        ring
      rw [hval]

/-- With enough fuel and a width-consistent memo, the memoized counter
model returns exactly the pure counter's value and preserves the memo
invariant: within a single width per process, the source's memoization is
faithful to the recurrence. -/
theorem motzkinMemoF_correct (w : Nat) :
    ∀ (n : Nat) (memo : Memo), GoodMemo w memo →
      ∃ memo', motzkinMemoF (w : Int) (n + 1) (n : Int) memo
          = some ((motzkinlengthk n w : Int), memo') ∧ GoodMemo w memo' := by
  intro n
  induction n using Nat.strong_induction_on with
  | _ n ih =>
    intro memo hgood
    unfold motzkinMemoF
    cases hl : List.lookup (n : Int) memo with
    | some v =>
        obtain ⟨hentries, h0⟩ := hgood
        obtain ⟨k, hk1, hk2⟩ := hentries _ (mem_of_lookup_some hl)
        simp only at hk1 hk2
        have hkn : k = n := by exact_mod_cast hk1.symm
        subst hkn
        refine ⟨memo, ?_, hentries, h0⟩
        simp only [hl, hk2]
    | none =>
        obtain ⟨hentries, v0, h0⟩ := hgood
        have hn1 : 1 ≤ n := by
          rcases Nat.eq_zero_or_pos n with rfl | h
          · have e0 : ((0 : Nat) : Int) = 0 := by simp
            rw [e0] at hl
            rw [hl] at h0
            exact absurd h0 (by simp)
          · exact h
        obtain ⟨m, rfl⟩ : ∃ m, n = m + 1 := ⟨n - 1, by omega⟩
        have e1 : ((m + 1 : Nat) : Int) - 1 = (m : Int) := by push_cast; ring
        obtain ⟨m1, hm1, hg1⟩ := ih m (by omega) memo ⟨hentries, v0, h0⟩
        have hgcall : ∀ (k : Nat) (memo2 : Memo), k ≤ (m + 1) - 2 → GoodMemo w memo2 →
            ∃ memo2', motzkinMemoF (w : Int) (m + 1) (k : Int) memo2
              = some ((motzkinlengthk k w : Int), memo2') ∧ GoodMemo w memo2' := by
          intro k memo2 hk hgood2
          obtain ⟨m2', h2', hg2'⟩ := ih k (by omega) memo2 hgood2
          exact ⟨m2', motzkinMemoF_mono (k + 1) (m + 1) (by omega) _ _ _ _ h2', hg2'⟩
        have hbound : ∀ i ∈ List.range' w (m - w), i ≤ (m + 1) - 2 ∧ 2 ≤ m + 1 := by
          intro i hi
          have := List.mem_range'_1.mp hi
          omega
        obtain ⟨m2, hm2, hg2⟩ := memoLoop_correct w (motzkinMemoF (w : Int) (m + 1))
          (m + 1) hgcall (List.range' w (m - w)) hbound 0 m1 hg1
        refine ⟨(((m + 1 : Nat) : Int), (motzkinlengthk (m + 1) w : Int)) :: m2, ?_, ?_, ?_⟩
        · simp only [hl, e1, hm1, intRange_natCast w m, hm2]
          have hsub : ∀ i : Nat, (m + 1) - 2 - i = m - 1 - i := by omega
          simp only [hsub]
          have hval : (motzkinlengthk m w : Int)
              + (0 + (((List.range' w (m - w)).map (fun i =>
                  motzkinlengthk i w * motzkinlengthk (m - 1 - i) w)).sum : Nat) : Int)
              = (motzkinlengthk (m + 1) w : Int) := by
            rw [motzkinlengthk_succ w m]
            push_cast
            ring
          rw [hval]
        · intro p hp
          rcases List.mem_cons.mp hp with rfl | hp2
          · exact ⟨m + 1, rfl, rfl⟩
          · exact hg2.1 p hp2
        · obtain ⟨v2, hv2⟩ := hg2.2
          refine ⟨v2, ?_⟩
          have hne : ((0 : Int) == ((m + 1 : Nat) : Int)) = false := by
            simp only [beq_eq_false_iff_ne, ne_eq]
            intro he
            have : ((m + 1 : Nat) : Int) = 0 := he.symm
            omega
          simp only [List.lookup_cons, hne]
          exact hv2

/-- From the initial memo `{0: 1}`, the memoized counter model computes
exactly the pure `motzkinlengthk` for every valid input: the pure
denotation is faithful to the source's memoized function in a fresh
process. -/
theorem motzkinMemoF_init_eq (n w : Nat) :
    ∃ memo', motzkinMemoF (w : Int) (n + 1) (n : Int) initMemo
        = some ((motzkinlengthk n w : Int), memo') := by
  have hg : GoodMemo w initMemo := by
    constructor
    · intro p hp
      rw [initMemo, List.mem_singleton] at hp
      subst hp
      exact ⟨0, by simp, by simp [motzkinlengthk_zero]⟩
    · exact ⟨1, by decide⟩
  obtain ⟨m', hm', _⟩ := motzkinMemoF_correct w n initMemo hg
  exact ⟨m', hm'⟩

/-- C4: contrary to the spec, negative arguments are not rejected with
InvalidArgument: neither operation validates its inputs, and both recurse
without bound - `count(-1, 0)` (from the initial shared memo) and a full
drain of `enumerate(3, -2)` fail to terminate for every recursion budget,
and no error value is ever produced.  The positive half of the claim does
hold: every non-negative input terminates normally with a value. -/
theorem motzkin_negative_args_diverge :
    (∀ fuel : Nat, motzkinMemoF 0 fuel (-1) initMemo = none) ∧
      (∀ fuel : Nat, motzkinSeqF fuel 3 (-2) = none) ∧
      (∀ n w : Nat, ∃ memo', motzkinMemoF (w : Int) (n + 1) (n : Int) initMemo
        = some ((motzkinlengthk n w : Int), memo')) ∧
      (∀ n w : Nat, motzkinSeqF (n + 1) (n : Int) (w : Int)
        = some (motzkin_sequences n w)) :=
  ⟨fun fuel => motzkinMemoF_neg 0 fuel (-1) initMemo (by omega)
      (by intro p hp; rw [initMemo, List.mem_singleton] at hp; subst hp; decide),
    motzkinSeqF_three_negtwo,
    fun n w => motzkinMemoF_init_eq n w,
    fun n w => motzkinSeqF_eq n w (n + 1) (Nat.le_refl _)⟩
